import Mathlib

/-!
Verification development for the medical image fusion / Procrustes
registration application (`src/app.py`).

The development shallowly embeds the numerically relevant parts of the
source file:

* `Fusion._is_gray`, the channel layout checks and the error behaviour of
  the fusion pipeline (`Fusion.fuse`, `Fusion._tranfer_to_tensor`,
  `torch.cat`) over a concrete NumPy-array image model (`NpImg`);
* the value-level fusion algorithm (`Fusion._fuse`, `Fusion._softmax`,
  `VGG19.forward`) over exact rational arithmetic.  The pretrained VGG19
  convolution layers and the cv2 colour conversions are external,
  data-dependent components; they enter the embedding as function
  parameters, and `exp` of the softmax is likewise a parameter constrained
  to be positive, which is the only property of `exp` the algorithm uses.
  `F.interpolate(t, size=s)` is called in the source only with `s` equal to
  the spatial size of `t` (a same-size resize), so it is embedded as the
  identity;
* a small reference/store model of `Fusion.fuse` that tracks which NumPy
  arrays are allocated and which are written in place, for the frame
  property of the fusion entry point;
* the `procrustes` routine over real matrices, with the LAPACK singular
  value decomposition (`np.linalg.svd`) supplied as data constrained by
  the SVD contract.

Machine floats are modelled by exact arithmetic (`ℚ` for the fusion
pipeline, `ℝ` for `procrustes`); "within floating-point tolerance" claims
are settled as exact identities of the embedded functions.
-/

namespace MedApp

/-! ## Python-level error model

The source defines no exception classes of its own.  The constructors
below name, on one hand, the library exceptions its code paths can
actually raise, and on the other hand the two error classes named by the
specification (`DimensionMismatchError`, `ChannelError`), which occur
nowhere in the code; they are included so that statements about them can
be expressed and refuted. -/
inductive PyErr : Type
  /-- NumPy `IndexError`, e.g. `img[:, :, 2]` on an array whose third
  axis has fewer than 3 entries (`Fusion._is_gray`, line 214), or
  indexing `[:, :, 0]` into an array that `np.squeeze` collapsed below
  three dimensions. -/
  | indexError : PyErr
  /-- Python `TypeError`, e.g. `np.zeros(n, m-my)` passing the integer
  `m-my` where a dtype is expected (`procrustes`, line 54). -/
  | typeError : PyErr
  /-- `cv2.error` from `cv2.cvtColor` on an unsupported channel count. -/
  | cvError : PyErr
  /-- `RuntimeError` from `torch.cat` when the non-concatenated
  dimensions (here the spatial sizes) disagree (`Fusion._fuse`, line 173). -/
  | catSizeMismatch : PyErr
  /-- `RuntimeError` from `nn.Conv2d` when the input tensor's channel
  count differs from the layer's expected 3 input channels. -/
  | convChannelMismatch : PyErr
  /-- `RuntimeError` raised inside the 37-layer VGG19 forward pass when
  a spatial extent is too small: `VGG19.forward` never breaks out of
  its loop, so all five `MaxPool2d(2, 2)` layers run, each needing an
  input extent ≥ 2; the pass therefore requires `min(H, W) ≥ 32`.  (A
  0-extent input already fails at the first padded convolution.) -/
  | spatialTooSmall : PyErr
  /-- `AttributeError` from `max_fusion.cpu()` when the fusion loop never
  ran and `max_fusion` is still `None` (`Fusion._fuse`, line 186). -/
  | attributeError : PyErr
  /-- NumPy `ValueError` from broadcasting an `(H, W, 3)` array into the
  `(H, W)` slice `YCbCr_images[idx][:, :, 0]` (`Fusion.fuse`, line 150),
  which happens from the second colour input onwards. -/
  | valueError : PyErr
  /-- Named by the specification's error taxonomy; never defined or
  raised by the code. -/
  | dimensionMismatchError : PyErr
  /-- Named by the specification's error taxonomy; never defined or
  raised by the code. -/
  | channelError : PyErr
deriving DecidableEq, Repr

/-! ## NumPy image model (concrete shapes)

An input image is a NumPy array, either 2-dimensional (`H × W`) or
3-dimensional (`H × W × C`).  Pixels are exact rationals standing for the
stored numeric values. -/

/-- A 2-dimensional NumPy array (grayscale image). -/
structure Img2 : Type where
  H : ℕ
  W : ℕ
  px : Fin H → Fin W → ℚ

/-- A 3-dimensional NumPy array (`H × W × C`). -/
structure Img3 : Type where
  H : ℕ
  W : ℕ
  C : ℕ
  px : Fin H → Fin W → Fin C → ℚ

/-- A NumPy array with image rank: 2-D or 3-D. -/
inductive NpImg : Type
  | d2 : Img2 → NpImg
  | d3 : Img3 → NpImg

/-- Channel access `img[:, :, k]` with NumPy semantics at in-range
indices; out-of-range access is handled by the callers (which raise
`IndexError`), so the out-of-range value here is never relied upon. -/
def Img3.chan (i : Img3) (k : ℕ) (r : Fin i.H) (c : Fin i.W) : ℚ :=
  if h : k < i.C then i.px r c ⟨k, h⟩ else 0

/-- Whether the first three channels of a 3-D array are pixel-wise
identical: `(b == g).all() and (b == r).all()` with
`b, g, r = img[:,:,0], img[:,:,1], img[:,:,2]`. -/
def Img3.first3Eq (i : Img3) : Prop :=
  ∀ r c, i.chan 0 r c = i.chan 1 r c ∧ i.chan 0 r c = i.chan 2 r c

instance (i : Img3) : Decidable i.first3Eq := by
  unfold Img3.first3Eq; infer_instance

/-- `Fusion._is_gray` (lines 206-217).  `len(img.shape) < 3` returns
`True`; a third axis of extent 1 returns `True`; with a third axis of
extent 0 or 2 the unpacking `b, g, r = img[:,:,0], img[:,:,1],
img[:,:,2]` raises `IndexError`; otherwise the first three channels are
compared pixel-wise. -/
def isGray : NpImg → Except PyErr Bool
  | .d2 _ => .ok true
  | .d3 i =>
    if i.C = 1 then .ok true
    else if i.C < 3 then .error .indexError
    else .ok (decide i.first3Eq)

/-- Spatial size (`H`, `W`) of an image. -/
def NpImg.spatial : NpImg → ℕ × ℕ
  | .d2 i => (i.H, i.W)
  | .d3 i => (i.H, i.W)

instance : Inhabited NpImg := ⟨.d2 ⟨0, 0, fun i _ => i.elim0⟩⟩

/-- Channel count of the PyTorch tensor `Fusion._tranfer_to_tensor`
(lines 227-241) builds for an image that passed the grayscale test /
colour conversion stage: a 2-D array is replicated to 3 channels
(`np.repeat(np_input[None, None], 3, axis=1)`); a 3-D array classified
gray is transposed channel-first keeping its own `C` channels; a colour
image contributes only the 2-D luminance plane of its YCbCr conversion,
which is then replicated to 3 channels. -/
def tensorChannels : NpImg → ℕ
  | .d2 _ => 3
  | .d3 i => if i.C = 1 ∨ (3 ≤ i.C ∧ i.first3Eq) then i.C else 3

/-- The first error raised by the per-image conversion stage of
`Fusion.fuse` (lines 137-142): `_is_gray` may raise `IndexError`;
`cv2.cvtColor(·, COLOR_RGB2YCrCb)` requires exactly 3 channels, so a
non-gray image with a different channel count raises `cv2.error`. -/
def stage1Err (img : NpImg) : Option PyErr :=
  match isGray img with
  | .error e => some e
  | .ok true => none
  | .ok false =>
    match img with
    | .d2 _ => none
    | .d3 i => if i.C = 3 then none else some .cvError

/-- First `some` element produced by `f` over a list, in order. -/
def firstErr (f : NpImg → Option PyErr) : List NpImg → Option PyErr
  | [] => none
  | img :: rest =>
    match f img with
    | some e => some e
    | none => firstErr f rest

/-- First error raised by running the VGG19 feature extractor on one
image's tensor (`self.model(tensor_img)`, line 166): the first layer is
`Conv2d(3, 64, ...)`, which rejects tensors whose channel count is not
3; past it, the forward pass runs all 37 feature layers, and its five
`MaxPool2d(2, 2)` layers (plus the padded convolutions between them)
need both spatial extents to be at least 32. -/
def convErr (img : NpImg) : Option PyErr :=
  if tensorChannels img ≠ 3 then some .convChannelMismatch
  else if img.spatial.1 < 32 ∨ img.spatial.2 < 32 then
    some .spatialTooSmall
  else none

/-- Whether `Fusion._is_gray` returns `False` on the image, i.e. the
image takes the colour path of `Fusion.fuse`. -/
def isColorOutcome (img : NpImg) : Bool :=
  match isGray img with
  | .ok false => true
  | _ => false

/-- Control-flow / shape model of a full `Fusion.fuse` call (lines
130-154) with the actual VGG19 extractor (which captures exactly one
feature map per image, see `vggForward`): the first library error the
call raises, or `none` when the call completes.  The stages, in program
order: the per-image grayscale test and colour conversion; the
per-image feature extraction (channel check, then the ≥ 32 spatial
minimum of the full 37-layer forward pass); the `max_fusion.cpu()`
crash when there are no images; `torch.cat` of the per-image saliency
maps (spatial-size check); and the in-place luminance write, which
raises a broadcast `ValueError` from the second colour image onwards.
Past the extractor stage both spatial extents are ≥ 32, so the
`squeeze`/`transpose`/`[:, :, 0]` layout steps are well-defined. -/
def fuseErr (imgs : List NpImg) : Option PyErr :=
  match firstErr stage1Err imgs with
  | some e => some e
  | none =>
    match firstErr convErr imgs with
    | some e => some e
    | none =>
      match imgs with
      | [] => some .attributeError
      | img₀ :: _ =>
        if ¬ imgs.all (fun i => i.spatial = img₀.spatial) then
          some .catSizeMismatch
        else if 2 ≤ (imgs.filter isColorOutcome).length then
          some .valueError
        else none

/-- An image the per-image stages accept without error: a 2-D array, or a
3-D array with exactly 3 channels. -/
def imgOk : NpImg → Prop
  | .d2 _ => True
  | .d3 i => i.C = 3

instance : DecidablePred imgOk := by
  intro img; cases img <;> unfold imgOk <;> infer_instance

/-- All images share the spatial size of the first one (the condition
`torch.cat` checks). -/
def allSameSpatial (imgs : List NpImg) : Prop :=
  ∀ i ∈ imgs, i.spatial = imgs.headI.spatial

instance (imgs : List NpImg) : Decidable (allSameSpatial imgs) := by
  unfold allSameSpatial; infer_instance

/-- The grayscale condition as the specification words it, adjusted to
the first three channels: fewer than 3 dimensions, a single channel, or
the first three channels pixel-wise identical. -/
def specGray : NpImg → Prop
  | .d2 _ => True
  | .d3 i => i.C = 1 ∨ (3 ≤ i.C ∧ i.first3Eq)

/-- Helper lemmas for the error pipeline. -/
theorem stage1Err_eq_none_of_imgOk {img : NpImg} (h : imgOk img) :
    stage1Err img = none := by
  cases img with
  | d2 i => rfl
  | d3 i =>
    have hC : i.C = 3 := h
    cases h3 : decide i.first3Eq <;>
      simp [stage1Err, isGray, hC, h3]

theorem convErr_eq_none_of_imgOk {img : NpImg} (h : imgOk img)
    (hbig : 32 ≤ img.spatial.1 ∧ 32 ≤ img.spatial.2) :
    convErr img = none := by
  have hsp : ¬ (img.spatial.1 < 32 ∨ img.spatial.2 < 32) := by omega
  cases img with
  | d2 i =>
    unfold convErr tensorChannels
    simp only [if_neg hsp]
    norm_num
  | d3 i =>
    have hC : i.C = 3 := h
    unfold convErr tensorChannels
    by_cases h3 : i.C = 1 ∨ (3 ≤ i.C ∧ i.first3Eq) <;>
      simp [h3, hC, hsp]

theorem firstErr_eq_none {f : NpImg → Option PyErr} {l : List NpImg}
    (h : ∀ i ∈ l, f i = none) : firstErr f l = none := by
  induction l with
  | nil => rfl
  | cons a t ih =>
    unfold firstErr
    rw [h a (List.mem_cons_self a t)]
    exact ih fun i hi => h i (List.mem_cons_of_mem a hi)

/-- C8, the claim as stated is false: on an array with exactly 2
channels — an image that is neither lower-dimensional, nor
single-channel, nor three-channel — `_is_gray` does not return `False`;
the unpacking `b, g, r = img[:,:,0], img[:,:,1], img[:,:,2]` raises
`IndexError`. -/
theorem isGray_twoChannel_raises :
    isGray (.d3 ⟨1, 1, 2, fun _ _ _ => 0⟩) = .error .indexError ∧
      isGray (.d3 ⟨1, 1, 2, fun _ _ _ => 0⟩) ≠ .ok false := by
  refine ⟨rfl, ?_⟩
  intro h
  rw [show isGray (.d3 ⟨1, 1, 2, fun _ _ _ => 0⟩) = .error .indexError from rfl] at h
  exact Except.noConfusion h

/-- C8 (amended): `_is_gray` returns `True` iff the image has fewer than
3 dimensions, a single channel, or its first three channels pixel-wise
identical; it returns `False` iff the image has at least 3 channels whose
first three are not identical; and on a 3-D image with 0 or 2 channels it
raises `IndexError` instead of returning. -/
theorem isGray_characterization (img : NpImg) :
    (isGray img = .ok true ↔ specGray img) ∧
      (isGray img = .error .indexError ↔
        ∃ i : Img3, img = .d3 i ∧ (i.C = 0 ∨ i.C = 2)) ∧
      (isGray img = .ok false ↔
        ∃ i : Img3, img = .d3 i ∧ 3 ≤ i.C ∧ ¬ i.first3Eq) := by
  cases img with
  | d2 i => simp [isGray, specGray]
  | d3 i =>
    by_cases h1 : i.C = 1
    · simp [isGray, specGray, h1]
    · by_cases h2 : i.C < 3
      · have h0 : i.C = 0 ∨ i.C = 2 := by omega
        simp [isGray, specGray, h1, h2, h0]
      · have h4 : 3 ≤ i.C := Nat.le_of_not_lt h2
        by_cases h3 : i.first3Eq <;>
          simp [isGray, specGray, h1, h2, h3, h4] <;> omega

/-- C3, the claim as stated is false: fusing a 32×32 image with a
33×33 image (both large enough for the feature extractor) fails, but
with the `torch.cat` size-mismatch `RuntimeError` — the code defines
and raises no `DimensionMismatchError`. -/
theorem fuseErr_mismatch_not_dimensionMismatchError :
    fuseErr [.d2 ⟨32, 32, fun _ _ => 0⟩, .d2 ⟨33, 33, fun _ _ => 0⟩] =
        some .catSizeMismatch ∧
      fuseErr [.d2 ⟨32, 32, fun _ _ => 0⟩, .d2 ⟨33, 33, fun _ _ => 0⟩] ≠
        some .dimensionMismatchError := by
  refine ⟨rfl, ?_⟩
  intro h
  rw [show fuseErr [.d2 ⟨32, 32, fun _ _ => 0⟩, .d2 ⟨33, 33, fun _ _ => 0⟩]
      = some .catSizeMismatch from rfl] at h
  exact PyErr.noConfusion (Option.some.inj h)

/-- C3 (amended): a fusion call whose inputs all pass the per-image
stages (2-D, or 3-D with exactly 3 channels, and both spatial extents
≥ 32 so the VGG19 forward pass runs) but disagree in spatial size fails
with the generic `torch.cat` size-mismatch `RuntimeError`; a fusion
call whose first image has 2 channels fails with the generic NumPy
`IndexError` raised inside `_is_gray`; and a fusion call whose first
image is smaller than 32×32 fails before `torch.cat`, with the
`RuntimeError` the VGG19 pooling layers raise inside the feature
extractor.  No failure uses a dedicated `DimensionMismatchError` or
`ChannelError` class, since the code defines none. -/
theorem fuseErr_failure_modes (imgs : List NpImg) (i2 : Img3)
    (rest : List NpImg) (g2 : Img2) (rest2 : List NpImg)
    (h1 : ∀ i ∈ imgs, imgOk i)
    (hbig : ∀ i ∈ imgs, 32 ≤ i.spatial.1 ∧ 32 ≤ i.spatial.2)
    (h2 : ¬ allSameSpatial imgs) (hc : i2.C = 2)
    (hok2 : ∀ i ∈ rest2, imgOk i) (hsmall : g2.H < 32 ∨ g2.W < 32) :
    fuseErr imgs = some .catSizeMismatch ∧
      fuseErr (.d3 i2 :: rest) = some .indexError ∧
      fuseErr (.d2 g2 :: rest2) = some .spatialTooSmall := by
  refine ⟨?_, ?_, ?_⟩
  · obtain ⟨img₀, tl, rfl⟩ : ∃ a t, imgs = a :: t := by
      cases imgs with
      | nil => exact absurd (fun i hi => absurd hi (List.not_mem_nil i)) h2
      | cons a t => exact ⟨a, t, rfl⟩
    unfold fuseErr
    rw [firstErr_eq_none fun i hi => stage1Err_eq_none_of_imgOk (h1 i hi),
      firstErr_eq_none fun i hi =>
        convErr_eq_none_of_imgOk (h1 i hi) (hbig i hi)]
    have : ¬ (img₀ :: tl).all fun i => i.spatial = img₀.spatial := by
      intro hall
      exact h2 fun i hi => by
        simpa using (List.all_eq_true.mp hall) i hi
    simp [this]
  · simp [fuseErr, firstErr, stage1Err, isGray, hc]
  · have hc2 : convErr (.d2 g2) = some .spatialTooSmall := by
      unfold convErr tensorChannels
      rw [if_neg (by norm_num), if_pos (by exact hsmall)]
    unfold fuseErr
    rw [firstErr_eq_none fun i hi => stage1Err_eq_none_of_imgOk
      (by
        rcases List.mem_cons.mp hi with rfl | hi'
        · exact trivial
        · exact hok2 i hi')]
    unfold firstErr
    rw [hc2]

/-- Witness for `fuseErr_failure_modes` at concrete inputs. -/
theorem fuseErr_failure_modes_witness :
    fuseErr [.d2 ⟨32, 32, fun _ _ => 0⟩, .d2 ⟨33, 33, fun _ _ => 0⟩] =
        some .catSizeMismatch ∧
      fuseErr [.d3 ⟨1, 1, 2, fun _ _ _ => 0⟩] = some .indexError ∧
      fuseErr [.d2 ⟨2, 2, fun _ _ => 0⟩] = some .spatialTooSmall :=
  fuseErr_failure_modes
    [.d2 ⟨32, 32, fun _ _ => 0⟩, .d2 ⟨33, 33, fun _ _ => 0⟩]
    ⟨1, 1, 2, fun _ _ _ => 0⟩ [] ⟨2, 2, fun _ _ => 0⟩ []
    (by decide) (by decide) (by decide) rfl (by decide) (by decide)

/-! ## Value-level fusion model

Images of one fusion call share their spatial size and have both
spatial extents ≥ 32 — calls violating either crash before producing a
value (at `torch.cat`, resp. inside the VGG19 forward pass; see
`fuseErr`) — so pixel positions form one abstract type `P`.  Spatial
operations of `Fusion._fuse` are positionwise on that domain: the two
`F.interpolate(t, size=self.images_to_tensors[0].shape[2:])` calls
resize a map to the spatial size it already has (nearest-neighbour
same-size resize, the identity), and `np.squeeze`/`np.transpose` only
reorder layout.  `torch.exp` and the cv2 colour conversions are
external numeric routines and enter as function parameters, as does the
feature extractor (total on this domain); every theorem that needs it
assumes only `exp`'s positivity, which is the sole property `_softmax`
relies on. -/

/-- A `(1, 3, H, W)` PyTorch tensor over abstract pixel positions `P`
(the batch axis, always of extent 1, is dropped). -/
def Tensor (P : Type) : Type := Fin 3 → P → ℚ

/-- A `(1, C, H, W)` feature map produced by a network layer. -/
structure FMap (P : Type) : Type where
  C : ℕ
  data : Fin C → P → ℚ

instance {P : Type} : Inhabited (FMap P) := ⟨⟨0, fun c _ => c.elim0⟩⟩

/-- `torch.sum(feature_map, dim=1, keepdim=True)` (`Fusion._fuse`,
line 168): collapse the channel axis by summation. -/
def sumMap {P : Type} (f : FMap P) : P → ℚ := fun p => ∑ c, f.data c p

/-- Per-pixel denominator of `Fusion._softmax` (line 224):
`tensor.sum(dim=1, keepdim=True)` of the exponentiated channels.  `g` is
the list of per-image saliency channels concatenated by `torch.cat`
(line 173); `e` stands for `torch.exp`. -/
def smDen {P : Type} (e : ℚ → ℚ) (g : List (P → ℚ)) (p : P) : ℚ :=
  ∑ i ∈ Finset.range g.length, e (g.getD i (fun _ => 0) p)

/-- Channel `i` of the Weight Map: `Fusion._softmax` (lines 219-225),
already composed with the same-size `F.interpolate` of lines 174-177
(the identity). -/
def smWeight {P : Type} (e : ℚ → ℚ) (g : List (P → ℚ)) (i : ℕ) (p : P) :
    ℚ :=
  e (g.getD i (fun _ => 0) p) / smDen e g p

/-- One `current_fusion` stage of `Fusion._fuse` (lines 178-180):
`current_fusion += tensor_img * weights[:, idx]` over
`enumerate(self.images_to_tensors)`, starting from `torch.zeros`. -/
def currentFusion {P : Type} (e : ℚ → ℚ) (g : List (P → ℚ))
    (ts : List (Tensor P)) : Tensor P :=
  fun ch p => ∑ i ∈ Finset.range ts.length,
    (ts.getD i (fun _ _ => 0)) ch p * smWeight e g i p

/-- Fuel-indexed kernel of `pyZip`. -/
def pyZipAux {α : Type} [Inhabited α] : ℕ → List (List α) → List (List α)
  | 0, _ => []
  | n + 1, ls =>
    if ls.isEmpty ∨ ls.any (·.isEmpty) then []
    else (ls.map (·.headI)) :: pyZipAux n (ls.map (·.tail))

/-- Python `zip(*lists)` (line 172): transpose a list of lists,
truncating at the shortest; `zip()` of no lists is empty. -/
def pyZip {α : Type} [Inhabited α] (ls : List (List α)) :
    List (List α) :=
  pyZipAux ls.headI.length ls

/-- The per-depth groups of saliency maps iterated by
`for sum_maps in zip(*imgs_sum_maps)` (line 172). -/
def salGroups {P : Type} (model : Tensor P → List (FMap P))
    (ts : List (Tensor P)) : List (List (P → ℚ)) :=
  pyZip (ts.map (fun t => (model t).map sumMap))

/-- Element-wise `torch.max` (line 184). -/
def tmax {P : Type} (a b : Tensor P) : Tensor P :=
  fun ch p => max (a ch p) (b ch p)

/-- The `max_fusion` accumulation of `Fusion._fuse` (lines 171-184):
`None` when the loop never ran (the caller then crashes on
`None.cpu()`). -/
def maxFusion {P : Type} : List (Tensor P) → Option (Tensor P)
  | [] => none
  | f :: fs => some (fs.foldl tmax f)

/-- `Fusion._fuse` (lines 157-189) up to the `squeeze`/`transpose`
layout step: the cross-depth maximum of the per-depth weighted sums.
The caller reads channel 0 of the result. -/
def mfuse {P : Type} (e : ℚ → ℚ) (model : Tensor P → List (FMap P))
    (ts : List (Tensor P)) : Option (Tensor P) :=
  maxFusion ((salGroups model ts).map (fun g => currentFusion e g ts))

/-- An input image as classified by `_is_gray`: `gray` carries the 2-D
pixel array of an image on the grayscale path, `color` an RGB image. -/
inductive AImg (P : Type) : Type
  | gray : (P → ℚ) → AImg P
  | color : (P → Fin 3 → ℚ) → AImg P

/-- `Fusion._RGB_to_YCbCr` (lines 192-197): 8-bit normalization followed
by the external `cv2.cvtColor(·, COLOR_RGB2YCrCb)`, supplied as the
parameter `cvt`. -/
def rgbToYCbCr {P : Type} (cvt : (P → Fin 3 → ℚ) → P → Fin 3 → ℚ)
    (img : P → Fin 3 → ℚ) : P → Fin 3 → ℚ :=
  cvt (fun p ch => img p ch / 255)

/-- `self.normalized_images[idx]` (lines 137-142): `img / 255.` on the
grayscale path, the luminance plane `YCbCr[:, :, 0]` on the colour
path. -/
def normalized {P : Type} (cvt : (P → Fin 3 → ℚ) → P → Fin 3 → ℚ) :
    AImg P → P → ℚ
  | .gray g => fun p => g p / 255
  | .color c => fun p => rgbToYCbCr cvt c p 0

/-- `Fusion._tranfer_to_tensor` on a 2-D array (line 235): replication
of the plane to 3 channels. -/
def grayTensor {P : Type} (l : P → ℚ) : Tensor P := fun _ p => l p

/-- The running `fused_img` value of `Fusion.fuse`: initially the fused
2-D luminance, after a colour reconstruction an `(H, W, 3)` RGB
image. -/
inductive FOut (P : Type) : Type
  | lum : (P → ℚ) → FOut P
  | rgb : (P → Fin 3 → ℚ) → FOut P

/-- The in-place write `YCbCr_images[idx][:, :, 0] = fused_img`
(line 150) on a 2-D `fused_img`. -/
def setCh0 {P : Type} (y : P → Fin 3 → ℚ) (l : P → ℚ) :
    P → Fin 3 → ℚ :=
  fun p ch => if ch = 0 then l p else y p ch

/-- `np.clip(·, 0, 1)` (line 152). -/
def clip01 (x : ℚ) : ℚ := min (max x 0) 1

/-- One iteration of the reconstruction loop (lines 148-152).  A
grayscale input leaves `fused_img` alone.  For a colour input,
`fused_img` must still be the 2-D luminance: from the second colour
image on, the slice assignment of the `(H, W, 3)` `fused_img` into the
2-D luminance slice raises a broadcast `ValueError`.  `cvtInv` is the
external `cv2.cvtColor(·, COLOR_YCrCb2RGB)`. -/
def reconStep {P : Type} (cvt cvtInv : (P → Fin 3 → ℚ) → P → Fin 3 → ℚ)
    (img : AImg P) (st : FOut P) : Except PyErr (FOut P) :=
  match img with
  | .gray _ => .ok st
  | .color c =>
    match st with
    | .rgb _ => .error .valueError
    | .lum l =>
      let y := setCh0 (rgbToYCbCr cvt c) l
      .ok (.rgb (fun p ch => clip01 (cvtInv y p ch)))

/-- The reconstruction loop of `Fusion.fuse` (lines 148-152): iterate
`reconStep` over the input images in order, stopping at the first
exception. -/
def reconFold {P : Type} (cvt cvtInv : (P → Fin 3 → ℚ) → P → Fin 3 → ℚ) :
    List (AImg P) → FOut P → Except PyErr (FOut P)
  | [], st => .ok st
  | img :: rest, st =>
    match reconStep cvt cvtInv img st with
    | .error err => .error err
    | .ok st' => reconFold cvt cvtInv rest st'

/-- `Fusion.fuse` (lines 130-154) at the value level, returning the
floating-point image that the final line scales by 255 and casts to
`uint8`. -/
def fuseA {P : Type} (e : ℚ → ℚ) (model : Tensor P → List (FMap P))
    (cvt cvtInv : (P → Fin 3 → ℚ) → P → Fin 3 → ℚ)
    (imgs : List (AImg P)) : Except PyErr (FOut P) :=
  match mfuse e model (imgs.map (fun i => grayTensor (normalized cvt i))) with
  | none => .error .attributeError
  | some out => reconFold cvt cvtInv imgs (.lum (fun p => out 0 p))

/-- `VGG19.forward` (lines 108-114), kernel: apply the layers in order
from index `i`, capturing the activation right after the layer at
absolute index 3. -/
def vggAux {α : Type} : List (α → α) → ℕ → α → List α
  | [], _, _ => []
  | l :: ls, i, x => (if i = 3 then [l x] else []) ++ vggAux ls (i + 1) (l x)

/-- `VGG19.forward` (lines 108-114): run the feature layers in order,
capturing the activation at layer index 3. -/
def vggForward {α : Type} (layers : List (α → α)) (x : α) : List α :=
  vggAux layers 0 x

/-- The feature extractor `self.model` as used by `_fuse`: the input
tensor viewed as a 3-channel feature map, pushed through
`VGG19.forward`. -/
def vggModel {P : Type} (layers : List (FMap P → FMap P)) :
    Tensor P → List (FMap P) :=
  fun t => vggForward layers ⟨3, t⟩

/-- Modelled from the spec (§4.3, steps 2-4, a single tap depth): per
image, a saliency map `sal`; softmax of the saliency maps across images
gives the weights; the fused tensor is the per-pixel weighted sum of the
image tensors — with no cross-depth maximum. -/
def singleDepthFusion {P : Type} (e : ℚ → ℚ) (sal : List (P → ℚ))
    (ts : List (Tensor P)) : Tensor P :=
  fun ch p => ∑ i ∈ Finset.range ts.length,
    (ts.getD i (fun _ _ => 0)) ch p *
      (e (sal.getD i (fun _ => 0) p) /
        ∑ j ∈ Finset.range sal.length, e (sal.getD j (fun _ => 0) p))

/-! ### Structural lemmas about the fusion pipeline -/

theorem length_of_mem_pyZipAux {α : Type} [Inhabited α] :
    ∀ (fuel : ℕ) (ls : List (List α)) (g : List α),
      g ∈ pyZipAux fuel ls → g.length = ls.length := by
  intro fuel
  induction fuel with
  | zero => intro ls g hg; exact absurd hg (List.not_mem_nil g)
  | succ n ih =>
    intro ls g hg
    unfold pyZipAux at hg
    by_cases h : ls.isEmpty = true ∨ ls.any (·.isEmpty) = true
    · rw [if_pos h] at hg; exact absurd hg (List.not_mem_nil g)
    · rw [if_neg h] at hg
      rcases List.mem_cons.mp hg with h1 | h2
      · rw [h1, List.length_map]
      · rw [ih _ g h2, List.length_map]

theorem length_of_mem_salGroups {P : Type} {model : Tensor P → List (FMap P)}
    {ts : List (Tensor P)} {g : List (P → ℚ)}
    (hg : g ∈ salGroups model ts) : g.length = ts.length := by
  have hg' : g ∈ pyZipAux ((ts.map (fun t => (model t).map sumMap)).headI.length)
      (ts.map (fun t => (model t).map sumMap)) := hg
  have := length_of_mem_pyZipAux _ _ g hg'
  rwa [List.length_map] at this

theorem pyZip_singletons {α : Type} [Inhabited α] (ls : List (List α))
    (h1 : ∀ l ∈ ls, l.length = 1) (h0 : ls ≠ []) :
    pyZip ls = [ls.map (·.headI)] := by
  obtain ⟨a, t, rfl⟩ : ∃ a t, ls = a :: t := by
    cases ls with
    | nil => exact absurd rfl h0
    | cons a t => exact ⟨a, t, rfl⟩
  have ha : a.length = 1 := h1 a (List.mem_cons_self a t)
  have hcond : ¬((a :: t).isEmpty = true ∨ (a :: t).any (·.isEmpty) = true) := by
    rintro (h | h)
    · simp at h
    · rw [List.any_eq_true] at h
      obtain ⟨l, hl, hle⟩ := h
      have h1l := h1 l hl
      simp only [List.isEmpty_iff] at hle
      rw [hle] at h1l
      simp at h1l
  show pyZipAux ((a :: t).headI.length) (a :: t) = _
  rw [show (a :: t).headI = a from rfl, ha]
  unfold pyZipAux
  rw [if_neg hcond]
  rfl

theorem smWeight_sum_one {P : Type} (e : ℚ → ℚ) (he : ∀ x, 0 < e x)
    (g : List (P → ℚ)) (hg : g ≠ []) (p : P) :
    ∑ i ∈ Finset.range g.length, smWeight e g i p = 1 := by
  have hne : (Finset.range g.length).Nonempty :=
    Finset.nonempty_range_iff.mpr fun h => hg (List.length_eq_zero.mp h)
  have hden : 0 < smDen e g p := Finset.sum_pos (fun i _ => he _) hne
  unfold smWeight
  rw [← Finset.sum_div]
  exact div_self (ne_of_gt hden)

theorem smWeight_pos {P : Type} (e : ℚ → ℚ) (he : ∀ x, 0 < e x)
    (g : List (P → ℚ)) (hg : g ≠ []) (i : ℕ) (p : P) :
    0 < smWeight e g i p := by
  have hne : (Finset.range g.length).Nonempty :=
    Finset.nonempty_range_iff.mpr fun h => hg (List.length_eq_zero.mp h)
  exact div_pos (he _) (Finset.sum_pos (fun i _ => he _) hne)

theorem getD_replicate_of_lt {α : Type} (a d : α) {n i : ℕ} (h : i < n) :
    (List.replicate n a).getD i d = a := by
  rw [List.getD_eq_getElem _ _ (by simpa using h), List.getElem_replicate]

/-- C2: in any fusion call on at least one image, for every tap depth
(every group of per-image saliency channels the `zip` loop visits), the
Weight Map obtained by exponentiation, division by the per-pixel
cross-image sum and the same-size interpolation sums to exactly 1 over
the per-image channels at every pixel — hence certainly to 1 within
1e-5.  The only fact used about `torch.exp` is its positivity. -/
theorem weightMap_sums_to_one {P : Type} (e : ℚ → ℚ) (he : ∀ x, 0 < e x)
    (model : Tensor P → List (FMap P)) (ts : List (Tensor P))
    (hts : ts ≠ []) (g : List (P → ℚ)) (hg : g ∈ salGroups model ts)
    (p : P) :
    ∑ i ∈ Finset.range g.length, smWeight e g i p = 1 := by
  refine smWeight_sum_one e he g (fun hnil => hts ?_) p
  have hlen := length_of_mem_salGroups hg
  rw [hnil] at hlen
  exact List.length_eq_zero.mp hlen.symm

/-- Witness for `weightMap_sums_to_one`: one image, constant `exp`. -/
theorem weightMap_sums_to_one_witness :
    ∑ i ∈ Finset.range
        (([sumMap (⟨1, fun _ _ => 0⟩ : FMap (Fin 1))]).length),
      smWeight (fun _ => 1) [sumMap (⟨1, fun _ _ => 0⟩ : FMap (Fin 1))]
        i 0 = 1 :=
  weightMap_sums_to_one (fun _ => 1) (fun _ => by norm_num)
    (fun _ => [⟨1, fun _ _ => 0⟩]) [fun _ _ => 0] (by simp)
    [sumMap (⟨1, fun _ _ => 0⟩ : FMap (Fin 1))] (List.Mem.head _) 0

theorem reconFold_gray {P : Type}
    (cvt cvtInv : (P → Fin 3 → ℚ) → P → Fin 3 → ℚ)
    (imgs : List (AImg P)) (st : FOut P)
    (h : ∀ i ∈ imgs, ∃ g, i = AImg.gray g) :
    reconFold cvt cvtInv imgs st = .ok st := by
  induction imgs with
  | nil => rfl
  | cons a rest ih =>
    obtain ⟨g, rfl⟩ := h a (List.mem_cons_self a rest)
    show reconFold cvt cvtInv rest st = .ok st
    exact ih fun i hi => h i (List.mem_cons_of_mem _ hi)

/-- The cross-depth fusion of `N ≥ 1` identical tensors under a
single-capture extractor is the tensor itself: the softmax weights
degenerate to `1/N` per channel and the weighted sum collapses. -/
theorem mfuse_replicate {P : Type} (e : ℚ → ℚ) (he : ∀ x, 0 < e x)
    (model : Tensor P → List (FMap P)) (t : Tensor P) (N : ℕ)
    (hN : 0 < N) (hdepth : (model t).length = 1) :
    mfuse e model (List.replicate N t) = some t := by
  obtain ⟨fm, hfm⟩ := List.length_eq_one.mp hdepth
  set s : P → ℚ := sumMap fm with hs
  have hsal : salGroups model (List.replicate N t) =
      [List.replicate N s] := by
    unfold salGroups
    rw [List.map_replicate, hfm]
    show pyZip (List.replicate N [s]) = _
    rw [pyZip_singletons (List.replicate N [s])
        (fun l hl => by rw [List.eq_of_mem_replicate hl]; rfl)
        (by
          intro h
          have hlen := congrArg List.length h
          rw [List.length_replicate] at hlen
          exact hN.ne' hlen),
      List.map_replicate]
    rfl
  have hrepl_ne : List.replicate N s ≠ [] := by
    intro h
    have hlen := congrArg List.length h
    rw [List.length_replicate] at hlen
    exact hN.ne' hlen
  have hcf : currentFusion e (List.replicate N s) (List.replicate N t)
      = t := by
    funext ch p
    unfold currentFusion
    rw [List.length_replicate]
    rw [Finset.sum_congr rfl (fun i hi => by
      rw [getD_replicate_of_lt _ _ (Finset.mem_range.mp hi)]),
      ← Finset.mul_sum]
    have hsum : ∑ i ∈ Finset.range N,
        smWeight e (List.replicate N s) i p = 1 := by
      have := smWeight_sum_one e he (List.replicate N s) hrepl_ne p
      rwa [List.length_replicate] at this
    rw [hsum, mul_one]
  unfold mfuse
  rw [hsal]
  show some (currentFusion e (List.replicate N s) (List.replicate N t))
    = some t
  rw [hcf]

/-- Evaluation lemma: a single-depth fusion call on `N` identical
grayscale images returns the normalized input image. -/
theorem fuseA_replicate_gray_eq {P : Type} (e : ℚ → ℚ) (he : ∀ x, 0 < e x)
    (model : Tensor P → List (FMap P))
    (cvt cvtInv : (P → Fin 3 → ℚ) → P → Fin 3 → ℚ)
    (img : P → ℚ) (N : ℕ) (hN : 0 < N)
    (hdepth : (model (grayTensor (fun p => img p / 255))).length = 1) :
    fuseA e model cvt cvtInv (List.replicate N (.gray img)) =
      .ok (.lum (fun p => img p / 255)) := by
  set t : Tensor P := grayTensor (fun p => img p / 255) with ht
  have hmap : (List.replicate N (AImg.gray img)).map
      (fun i => grayTensor (normalized cvt i)) = List.replicate N t := by
    rw [List.map_replicate]; rfl
  unfold fuseA
  rw [hmap, mfuse_replicate e he model t N hN hdepth]
  show reconFold cvt cvtInv (List.replicate N (AImg.gray img))
    (.lum (fun p => t 0 p)) = _
  rw [reconFold_gray cvt cvtInv _ _
    (fun i hi => ⟨img, List.eq_of_mem_replicate hi⟩)]
  rfl

/-- C1, the claim as stated is false: a fusion call on two identical
colour images returns no fused image at all — the second iteration of
the reconstruction loop assigns the `(H, W, 3)` `fused_img` into the
2-D luminance slice `YCbCr_images[idx][:, :, 0]` (line 150) and raises
a broadcast `ValueError`. -/
theorem identicalColorFusion_crashes :
    fuseA (fun _ => (1 : ℚ))
        (fun _ => [(⟨1, fun _ _ => 0⟩ : FMap (Fin 1))]) id id
        [AImg.color (fun _ _ => 0), AImg.color (fun _ _ => 0)] =
      .error .valueError ∧
      ∀ out, fuseA (fun _ => (1 : ℚ))
          (fun _ => [(⟨1, fun _ _ => 0⟩ : FMap (Fin 1))]) id id
          [AImg.color (fun _ _ => 0), AImg.color (fun _ _ => 0)] ≠
        .ok out := by
  refine ⟨rfl, fun out h => ?_⟩
  rw [show fuseA (fun _ => (1 : ℚ))
      (fun _ => [(⟨1, fun _ _ => 0⟩ : FMap (Fin 1))]) id id
      [AImg.color (fun _ _ => 0), AImg.color (fun _ _ => 0)] =
    .error .valueError from rfl] at h
  exact Except.noConfusion h

/-- C1 (amended): on `N ≥ 1` identical grayscale images a single-depth
fusion call returns exactly the normalized input image — the softmax
weights degenerate to `1/N` per image and the weighted sum reproduces
the input luminance — whereas on `N ≥ 2` identical colour images the
call never returns: the second in-place luminance write broadcasts the
`(H, W, 3)` reconstruction into a 2-D slice and raises `ValueError`. -/
theorem identicalFusion_gray_and_color {P : Type} (e : ℚ → ℚ)
    (he : ∀ x, 0 < e x) (model : Tensor P → List (FMap P))
    (cvt cvtInv : (P → Fin 3 → ℚ) → P → Fin 3 → ℚ)
    (img : P → ℚ) (N : ℕ) (hN : 0 < N)
    (hdepth : (model (grayTensor (fun p => img p / 255))).length = 1)
    (cimg : P → Fin 3 → ℚ) (N2 : ℕ) (hN2 : 2 ≤ N2)
    (hdepth2 :
      (model (grayTensor (normalized cvt (.color cimg)))).length = 1) :
    fuseA e model cvt cvtInv (List.replicate N (.gray img)) =
        .ok (.lum (fun p => img p / 255)) ∧
      fuseA e model cvt cvtInv (List.replicate N2 (.color cimg)) =
        .error .valueError := by
  refine ⟨fuseA_replicate_gray_eq e he model cvt cvtInv img N hN hdepth, ?_⟩
  have hmap : (List.replicate N2 (AImg.color cimg)).map
      (fun i => grayTensor (normalized cvt i)) =
      List.replicate N2 (grayTensor (normalized cvt (.color cimg))) := by
    rw [List.map_replicate]
  unfold fuseA
  rw [hmap, mfuse_replicate e he model _ N2 (by omega) hdepth2]
  obtain ⟨k, rfl⟩ : ∃ k, N2 = k + 2 := ⟨N2 - 2, by omega⟩
  rfl

/-- Witness for `identicalFusion_gray_and_color`: two identical
all-zero grayscale images fuse to the zero luminance; two identical
all-zero colour images crash with the broadcast `ValueError`. -/
theorem identicalFusion_gray_and_color_witness :
    fuseA (fun _ => (1 : ℚ))
        (fun _ => [(⟨1, fun _ _ => 0⟩ : FMap (Fin 1))]) id id
        (List.replicate 2 (.gray (fun _ => 0))) =
      .ok (.lum (fun _ : Fin 1 => (0 : ℚ) / 255)) ∧
      fuseA (fun _ => (1 : ℚ))
        (fun _ => [(⟨1, fun _ _ => 0⟩ : FMap (Fin 1))]) id id
        (List.replicate 2 (.color (fun _ _ => 0))) =
      .error .valueError :=
  identicalFusion_gray_and_color (fun _ => 1) (fun _ => by norm_num)
    (fun _ => [⟨1, fun _ _ => 0⟩]) id id (fun _ => 0) 2 (by norm_num) rfl
    (fun _ _ => 0) 2 (by norm_num) rfl

theorem vggAux_length {α : Type} :
    ∀ (ls : List (α → α)) (i : ℕ) (x : α),
      (vggAux ls i x).length =
        if i ≤ 3 ∧ 3 < i + ls.length then 1 else 0 := by
  intro ls
  induction ls with
  | nil =>
    intro i x
    simp only [vggAux, List.length_nil, Nat.add_zero]
    split_ifs with h
    · omega
    · rfl
  | cons l rest ih =>
    intro i x
    simp only [vggAux, List.length_append, ih, List.length_cons,
      apply_ite List.length]
    split_ifs <;> simp_all <;> omega

theorem pyZip_of_singletons_map {P : Type}
    (model : Tensor P → List (FMap P)) (ts : List (Tensor P))
    (hone : ∀ t, (model t).length = 1) (hts : ts ≠ []) :
    salGroups model ts =
      [ts.map (fun t => sumMap ((model t).headI))] := by
  unfold salGroups
  show pyZip (ts.map (fun t => (model t).map sumMap)) = _
  rw [pyZip_singletons _
      (fun l hl => by
        obtain ⟨t, _, rfl⟩ := List.mem_map.mp hl
        rw [List.length_map, hone t])
      (by simpa using hts),
    List.map_map]
  refine congrArg (fun l => [l]) (List.map_congr_left fun t _ => ?_)
  obtain ⟨fm, hfm⟩ := List.length_eq_one.mp (hone t)
  simp [Function.comp, hfm]

/-- C9: with the VGG19 feature list (at least 4 layers), `forward`
captures exactly one feature map per call (the activation at layer
index 3); consequently the fusion loop has a single depth, the
`torch.max` combination never merges two tensors, and `_fuse` returns
precisely the single-depth softmax-weighted sum of the image tensors. -/
theorem vggSingleCapture_and_refine {P : Type}
    (layers : List (FMap P → FMap P)) (hlen : 4 ≤ layers.length)
    (e : ℚ → ℚ) (ts : List (Tensor P)) (hts : ts ≠ []) :
    (∀ t : Tensor P, (vggModel layers t).length = 1) ∧
      mfuse e (vggModel layers) ts =
        some (singleDepthFusion e
          (ts.map fun t => sumMap ((vggModel layers t).headI)) ts) := by
  have hone : ∀ t : Tensor P, (vggModel layers t).length = 1 := by
    intro t
    show (vggAux layers 0 (⟨3, t⟩ : FMap P)).length = 1
    rw [vggAux_length]
    rw [if_pos ⟨by omega, by omega⟩]
  refine ⟨hone, ?_⟩
  unfold mfuse
  rw [pyZip_of_singletons_map (vggModel layers) ts hone hts]
  rfl

/-- Witness for `vggSingleCapture_and_refine`: four identity layers, one
constant 1-pixel tensor. -/
theorem vggSingleCapture_and_refine_witness :
    (∀ t : Tensor (Fin 1),
        (vggModel ([id, id, id, id] : List (FMap (Fin 1) → FMap (Fin 1)))
          t).length = 1) ∧
      mfuse (fun _ => 1)
          (vggModel ([id, id, id, id] : List (FMap (Fin 1) → FMap (Fin 1))))
          [fun _ _ => 0] =
        some (singleDepthFusion (fun _ => 1)
          (([fun _ _ => 0] : List (Tensor (Fin 1))).map fun t =>
            sumMap ((vggModel
              ([id, id, id, id] : List (FMap (Fin 1) → FMap (Fin 1)))
              t).headI))
          [fun _ _ => 0]) :=
  vggSingleCapture_and_refine [id, id, id, id] (by norm_num)
    (fun _ => 1) [fun _ _ => 0] (by simp)

/-! ### Range safety of the fused output -/

/-- Precondition on one input image: a grayscale array holds 8-bit
values, i.e. pixels in `[0, 255]` (colour images need no pixel bound —
their contribution to the returned image passes through `np.clip`). -/
def inputInRange {P : Type} : AImg P → Prop
  | .gray g => ∀ p, 0 ≤ g p ∧ g p ≤ 255
  | .color _ => True

/-- Every pixel of `fused_img * 255`, the value cast to `uint8` by the
final line of `Fusion.fuse`, lies in `[0, 255]`. -/
def scaledInRange {P : Type} : FOut P → Prop
  | .lum l => ∀ p, 0 ≤ 255 * l p ∧ 255 * l p ≤ 255
  | .rgb g => ∀ p ch, 0 ≤ 255 * g p ch ∧ 255 * g p ch ≤ 255

theorem currentFusion_mem_Icc {P : Type} (e : ℚ → ℚ) (he : ∀ x, 0 < e x)
    (g : List (P → ℚ)) (ts : List (Tensor P)) (hg : g.length = ts.length)
    (hne : ts ≠ [])
    (hb : ∀ t ∈ ts, ∀ ch p, 0 ≤ t ch p ∧ t ch p ≤ 1) (ch : Fin 3) (p : P) :
    0 ≤ currentFusion e g ts ch p ∧ currentFusion e g ts ch p ≤ 1 := by
  have hgne : g ≠ [] := by
    intro h
    rw [h] at hg
    exact hne (List.length_eq_zero.mp hg.symm)
  have hw1 : ∑ i ∈ Finset.range ts.length, smWeight e g i p = 1 := by
    rw [← hg]; exact smWeight_sum_one e he g hgne p
  have hwpos : ∀ i, 0 ≤ smWeight e g i p :=
    fun i => (smWeight_pos e he g hgne i p).le
  constructor
  · apply Finset.sum_nonneg
    intro i hi
    have hi' := Finset.mem_range.mp hi
    refine mul_nonneg ?_ (hwpos i)
    rw [List.getD_eq_getElem _ _ hi']
    exact (hb _ (List.getElem_mem _) ch p).1
  · calc ∑ i ∈ Finset.range ts.length,
        (ts.getD i (fun _ _ => 0)) ch p * smWeight e g i p
        ≤ ∑ i ∈ Finset.range ts.length, smWeight e g i p := by
          apply Finset.sum_le_sum
          intro i hi
          have hi' := Finset.mem_range.mp hi
          rw [List.getD_eq_getElem _ _ hi']
          exact mul_le_of_le_one_left (hwpos i)
            (hb _ (List.getElem_mem _) ch p).2
    _ = 1 := hw1

theorem foldl_tmax_mem_Icc {P : Type} (l : List (Tensor P)) :
    ∀ (init : Tensor P),
      (∀ ch p, 0 ≤ init ch p ∧ init ch p ≤ 1) →
      (∀ t ∈ l, ∀ ch p, 0 ≤ t ch p ∧ t ch p ≤ 1) →
      ∀ ch p, 0 ≤ (l.foldl tmax init) ch p ∧ (l.foldl tmax init) ch p ≤ 1 := by
  induction l with
  | nil => intro init hinit _ ch p; exact hinit ch p
  | cons a rest ih =>
    intro init hinit hl ch p
    show 0 ≤ (rest.foldl tmax (tmax init a)) ch p ∧ _
    refine ih (tmax init a) (fun ch p => ?_)
      (fun t ht => hl t (List.mem_cons_of_mem _ ht)) ch p
    have ha := hl a (List.mem_cons_self a rest)
    exact ⟨le_max_of_le_left (hinit ch p).1,
      max_le (hinit ch p).2 (ha ch p).2⟩

theorem mfuse_mem_Icc {P : Type} (e : ℚ → ℚ) (he : ∀ x, 0 < e x)
    (model : Tensor P → List (FMap P)) (ts : List (Tensor P))
    (hne : ts ≠ [])
    (hb : ∀ t ∈ ts, ∀ ch p, 0 ≤ t ch p ∧ t ch p ≤ 1)
    (tf : Tensor P) (htf : mfuse e model ts = some tf) (ch : Fin 3)
    (p : P) : 0 ≤ tf ch p ∧ tf ch p ≤ 1 := by
  unfold mfuse at htf
  cases hst : (salGroups model ts).map (fun g => currentFusion e g ts) with
  | nil => rw [hst] at htf; exact Option.noConfusion htf
  | cons c cs =>
    rw [hst] at htf
    have htf' : cs.foldl tmax c = tf := Option.some.inj htf
    have hmem : ∀ x ∈ c :: cs, ∀ ch p, 0 ≤ x ch p ∧ x ch p ≤ 1 := by
      intro x hx
      rw [← hst] at hx
      obtain ⟨g, hgmem, rfl⟩ := List.mem_map.mp hx
      exact currentFusion_mem_Icc e he g ts
        (length_of_mem_salGroups hgmem) hne hb
    exact htf' ▸ foldl_tmax_mem_Icc cs c
      (hmem c (List.mem_cons_self c cs))
      (fun t' ht' => hmem t' (List.mem_cons_of_mem _ ht')) ch p

theorem reconFold_rgb_fix {P : Type}
    (cvt cvtInv : (P → Fin 3 → ℚ) → P → Fin 3 → ℚ)
    (imgs : List (AImg P)) :
    ∀ (g : P → Fin 3 → ℚ) (res : FOut P),
      reconFold cvt cvtInv imgs (.rgb g) = .ok res → res = .rgb g := by
  induction imgs with
  | nil => intro g res h; exact (Except.ok.inj h).symm
  | cons a rest ih =>
    intro g res h
    cases a with
    | gray ga => exact ih g res h
    | color ca =>
      exact Except.noConfusion
        (show (Except.error PyErr.valueError : Except PyErr (FOut P))
          = .ok res from h)

theorem reconFold_lum_cases {P : Type}
    (cvt cvtInv : (P → Fin 3 → ℚ) → P → Fin 3 → ℚ)
    (imgs : List (AImg P)) :
    ∀ (l : P → ℚ) (res : FOut P),
      reconFold cvt cvtInv imgs (.lum l) = .ok res →
      (res = .lum l ∧ ∀ i ∈ imgs, ∃ g', i = AImg.gray g') ∨
        ∃ y, res = .rgb (fun p ch => clip01 (cvtInv y p ch)) := by
  induction imgs with
  | nil =>
    intro l res h
    exact Or.inl ⟨(Except.ok.inj h).symm, fun i hi => absurd hi (List.not_mem_nil i)⟩
  | cons a rest ih =>
    intro l res h
    cases a with
    | gray ga =>
      rcases ih l res h with ⟨hres, hall⟩ | hy
      · refine Or.inl ⟨hres, fun i hi => ?_⟩
        rcases List.mem_cons.mp hi with rfl | hi'
        · exact ⟨ga, rfl⟩
        · exact hall i hi'
      · exact Or.inr hy
    | color ca =>
      have h' : reconFold cvt cvtInv rest
          (.rgb (fun p ch =>
            clip01 (cvtInv (setCh0 (rgbToYCbCr cvt ca) l) p ch))) = .ok res := h
      exact Or.inr ⟨setCh0 (rgbToYCbCr cvt ca) l,
        reconFold_rgb_fix cvt cvtInv rest _ res h'⟩

theorem clip01_mem_Icc (x : ℚ) : 0 ≤ clip01 x ∧ clip01 x ≤ 1 :=
  ⟨le_min (le_max_right x 0) (by norm_num), min_le_right _ 1⟩

/-- C4: whenever `Fusion.fuse` returns — including calls in which every
input image is grayscale, where the `np.clip` of the colour branch never
runs — every pixel of the returned image lies in `[0, 255]` with no
`uint8` wraparound: on the all-gray path the fused luminance is a
max-combination of convex combinations of the normalized inputs and so
lies in `[0, 1]` before the `* 255` scaling, and on the colour path the
result passes through `np.clip(·, 0, 1)`. -/
theorem fuseOutput_in_range {P : Type} (e : ℚ → ℚ) (he : ∀ x, 0 < e x)
    (model : Tensor P → List (FMap P))
    (cvt cvtInv : (P → Fin 3 → ℚ) → P → Fin 3 → ℚ)
    (imgs : List (AImg P)) (hin : ∀ i ∈ imgs, inputInRange i)
    (out : FOut P) (hout : fuseA e model cvt cvtInv imgs = .ok out) :
    scaledInRange out := by
  unfold fuseA at hout
  cases hm : mfuse e model (imgs.map fun i => grayTensor (normalized cvt i)) with
  | none => rw [hm] at hout; exact Except.noConfusion hout
  | some tf =>
    rw [hm] at hout
    have hout' : reconFold cvt cvtInv imgs (.lum fun p => tf 0 p)
        = .ok out := hout
    rcases reconFold_lum_cases cvt cvtInv imgs _ out hout' with
      ⟨rfl, hall⟩ | ⟨y, rfl⟩
    · -- all inputs grayscale: convexity bound on the fused luminance
      have hne : imgs ≠ [] := by
        rintro rfl
        rw [show mfuse e model (([] : List (AImg P)).map fun i =>
          grayTensor (normalized cvt i)) = none from rfl] at hm
        exact Option.noConfusion hm
      have hb : ∀ t ∈ imgs.map (fun i => grayTensor (normalized cvt i)),
          ∀ ch p, 0 ≤ t ch p ∧ t ch p ≤ 1 := by
        intro t ht ch p
        obtain ⟨i, hi, rfl⟩ := List.mem_map.mp ht
        obtain ⟨g', rfl⟩ := hall i hi
        have hrange := hin _ hi p
        constructor
        · show (0 : ℚ) ≤ g' p / 255
          exact div_nonneg hrange.1 (by norm_num)
        · show g' p / 255 ≤ 1
          rw [div_le_one (by norm_num)]
          exact hrange.2
      have htfb := mfuse_mem_Icc e he model _
        (by simpa using hne) hb tf hm 0
      intro p
      constructor
      · exact mul_nonneg (by norm_num) (htfb p).1
      · calc (255 : ℚ) * tf 0 p ≤ 255 * 1 :=
            mul_le_mul_of_nonneg_left (htfb p).2 (by norm_num)
        _ = 255 := by norm_num
    · -- colour path: the result is clipped
      intro p ch
      have hc := clip01_mem_Icc (cvtInv y p ch)
      constructor
      · exact mul_nonneg (by norm_num) hc.1
      · calc (255 : ℚ) * clip01 (cvtInv y p ch) ≤ 255 * 1 :=
            mul_le_mul_of_nonneg_left hc.2 (by norm_num)
        _ = 255 := by norm_num

/-- Witness for `fuseOutput_in_range`: one all-zero grayscale 1-pixel
image; the call returns the zero luminance, whose scaling is in
range. -/
theorem fuseOutput_in_range_witness :
    fuseA (fun _ => (1 : ℚ))
        (fun _ => [(⟨1, fun _ _ => 0⟩ : FMap (Fin 1))]) id id
        (List.replicate 1 (.gray (fun _ => 0))) =
      .ok (.lum (fun _ : Fin 1 => (0 : ℚ) / 255)) ∧
      scaledInRange (FOut.lum (fun _ : Fin 1 => (0 : ℚ) / 255)) :=
  have heval :
      fuseA (fun _ => (1 : ℚ))
          (fun _ => [(⟨1, fun _ _ => 0⟩ : FMap (Fin 1))]) id id
          (List.replicate 1 (.gray (fun _ => 0))) =
        .ok (.lum (fun _ : Fin 1 => (0 : ℚ) / 255)) :=
    fuseA_replicate_gray_eq (fun _ => 1) (fun _ => by norm_num)
      (fun _ => [⟨1, fun _ _ => 0⟩]) id id (fun _ => 0) 1 (by norm_num) rfl
  ⟨heval,
    fuseOutput_in_range (fun _ => 1) (fun _ => by norm_num)
      (fun _ => [⟨1, fun _ _ => 0⟩]) id id
      (List.replicate 1 (.gray (fun _ => 0)))
      (fun i hi => by
        rw [List.eq_of_mem_replicate hi]
        exact fun p => by norm_num)
      (.lum (fun _ : Fin 1 => (0 : ℚ) / 255)) heval⟩

/-! ## Reference/store model of `Fusion.fuse` (frame property)

NumPy arrays are heap objects; `Fusion.fuse` performs exactly one kind
of in-place write, `self.YCbCr_images[idx][:, :, 0] = fused_img`
(line 150), and its targets are the arrays freshly returned by
`cv2.cvtColor` in the conversion loop (line 139).  The store model
tracks array references explicitly: the conversion loop allocates the
YCbCr arrays, the reconstruction loop writes them in place.  The tensor
pipeline between the two loops (`_tranfer_to_tensor` + `_fuse`) reads
the extracted planes through copies (`astype(np.float32)`) and fresh
tensors, so it is store-pure and enters as the function parameter
`core`.  On an exception the loop stops with the store as of the raise,
which the model reproduces by returning the current store. -/

/-- A NumPy array heap: references `0, …, next-1` are allocated, each
holding an image value. -/
structure Store (P : Type) : Type where
  next : ℕ
  mem : ℕ → AImg P

/-- Allocate a fresh array holding `v`, returning the new store and the
new reference. -/
def Store.alloc {P : Type} (st : Store P) (v : AImg P) : Store P × ℕ :=
  (⟨st.next + 1, fun r => if r = st.next then v else st.mem r⟩, st.next)

/-- Overwrite the array at reference `r` (in-place write). -/
def Store.write {P : Type} (st : Store P) (r : ℕ) (v : AImg P) :
    Store P :=
  ⟨st.next, fun q => if q = r then v else st.mem q⟩

/-- Store-effect of the conversion loop (lines 137-142): for each input
reference in order, a colour image allocates its fresh YCbCr conversion;
a grayscale image allocates nothing (`img / 255.` creates a fresh array
the model need not track — it is never written). -/
def convStore {P : Type} (cvt : (P → Fin 3 → ℚ) → P → Fin 3 → ℚ) :
    List ℕ → Store P → Store P
  | [], st => st
  | r :: rest, st =>
    match st.mem r with
    | .gray _ => convStore cvt rest st
    | .color c =>
      convStore cvt rest (st.alloc (.color (rgbToYCbCr cvt c))).1

/-- Value-effect of the conversion loop: per input, the reference of its
YCbCr array (`none` on the grayscale path, where `YCbCr_images[idx]`
keeps its `-1` placeholder) and its normalized luminance plane. -/
def convPairs {P : Type} (cvt : (P → Fin 3 → ℚ) → P → Fin 3 → ℚ) :
    List ℕ → Store P → List (Option ℕ × (P → ℚ))
  | [], _ => []
  | r :: rest, st =>
    match st.mem r with
    | .gray g => (none, fun p => g p / 255) :: convPairs cvt rest st
    | .color c =>
      (some st.next, fun p => rgbToYCbCr cvt c p 0) ::
        convPairs cvt rest (st.alloc (.color (rgbToYCbCr cvt c))).1

/-- Store-effect of the reconstruction loop (lines 148-152): for each
colour input, write the fused luminance into channel 0 of its YCbCr
array in place.  Aborting situations (a second colour image broadcasts
an `(H, W, 3)` array into a 2-D slice; a non-colour value at a YCbCr
reference cannot occur) stop the loop, leaving the store as it is. -/
def reconStore {P : Type}
    (cvtInv : (P → Fin 3 → ℚ) → P → Fin 3 → ℚ) :
    List (Option ℕ) → Store P → FOut P → Store P
  | [], st, _ => st
  | none :: rest, st, fv => reconStore cvtInv rest st fv
  | some yr :: rest, st, fv =>
    match fv with
    | .rgb _ => st
    | .lum l =>
      match st.mem yr with
      | .gray _ => st
      | .color yc =>
        reconStore cvtInv rest (st.write yr (.color (setCh0 yc l)))
          (.rgb (fun p ch => clip01 (cvtInv (setCh0 yc l) p ch)))

/-- The array store after a full `Fusion.fuse` call on the inputs at
`refs`: run the conversion loop, compute the fused luminance with the
store-pure tensor pipeline `core`, run the reconstruction loop. -/
def fuseStore {P : Type} (cvt cvtInv : (P → Fin 3 → ℚ) → P → Fin 3 → ℚ)
    (core : List (P → ℚ) → P → ℚ) (st0 : Store P) (refs : List ℕ) :
    Store P :=
  reconStore cvtInv ((convPairs cvt refs st0).map Prod.fst)
    (convStore cvt refs st0)
    (.lum (core ((convPairs cvt refs st0).map Prod.snd)))

theorem alloc_mem_of_lt {P : Type} (st : Store P) (v : AImg P) {r : ℕ}
    (h : r < st.next) : (st.alloc v).1.mem r = st.mem r := by
  unfold Store.alloc
  simp only
  rw [if_neg (by omega)]

theorem convStore_cons_gray {P : Type} {cvt} {st : Store P} {r : ℕ}
    {g : P → ℚ} (rest : List ℕ) (h : st.mem r = .gray g) :
    convStore cvt (r :: rest) st = convStore cvt rest st := by
  simp only [convStore, h]

theorem convStore_cons_color {P : Type} {cvt} {st : Store P} {r : ℕ}
    {c : P → Fin 3 → ℚ} (rest : List ℕ) (h : st.mem r = .color c) :
    convStore cvt (r :: rest) st =
      convStore cvt rest (st.alloc (.color (rgbToYCbCr cvt c))).1 := by
  simp only [convStore, h]

theorem convPairs_cons_gray {P : Type} {cvt} {st : Store P} {r : ℕ}
    {g : P → ℚ} (rest : List ℕ) (h : st.mem r = .gray g) :
    convPairs cvt (r :: rest) st =
      (none, fun p => g p / 255) :: convPairs cvt rest st := by
  simp only [convPairs, h]

theorem convPairs_cons_color {P : Type} {cvt} {st : Store P} {r : ℕ}
    {c : P → Fin 3 → ℚ} (rest : List ℕ) (h : st.mem r = .color c) :
    convPairs cvt (r :: rest) st =
      (some st.next, fun p => rgbToYCbCr cvt c p 0) ::
        convPairs cvt rest (st.alloc (.color (rgbToYCbCr cvt c))).1 := by
  simp only [convPairs, h]

theorem reconStore_cons_some_lum_color {P : Type} {cvtInv}
    {st : Store P} {yr : ℕ} {yc : P → Fin 3 → ℚ} {l : P → ℚ}
    (rest : List (Option ℕ)) (h : st.mem yr = .color yc) :
    reconStore cvtInv (some yr :: rest) st (.lum l) =
      reconStore cvtInv rest (st.write yr (.color (setCh0 yc l)))
        (.rgb fun p ch => clip01 (cvtInv (setCh0 yc l) p ch)) := by
  simp only [reconStore, h]

theorem reconStore_cons_some_lum_gray {P : Type} {cvtInv}
    {st : Store P} {yr : ℕ} {g : P → ℚ} {l : P → ℚ}
    (rest : List (Option ℕ)) (h : st.mem yr = .gray g) :
    reconStore cvtInv (some yr :: rest) st (.lum l) = st := by
  simp only [reconStore, h]

theorem convStore_next_le {P : Type}
    (cvt : (P → Fin 3 → ℚ) → P → Fin 3 → ℚ) :
    ∀ (refs : List ℕ) (st : Store P),
      st.next ≤ (convStore cvt refs st).next := by
  intro refs
  induction refs with
  | nil => intro st; exact le_refl _
  | cons r rest ih =>
    intro st
    cases hm : st.mem r with
    | gray g => rw [convStore_cons_gray rest hm]; exact ih st
    | color c =>
      rw [convStore_cons_color rest hm]
      calc st.next ≤ st.next + 1 := Nat.le_succ _
        _ ≤ _ := ih (st.alloc (.color (rgbToYCbCr cvt c))).1

theorem convStore_mem_of_lt {P : Type}
    (cvt : (P → Fin 3 → ℚ) → P → Fin 3 → ℚ) :
    ∀ (refs : List ℕ) (st : Store P) (r : ℕ), r < st.next →
      (convStore cvt refs st).mem r = st.mem r := by
  intro refs
  induction refs with
  | nil => intro st r _; rfl
  | cons q rest ih =>
    intro st r hr
    cases hm : st.mem q with
    | gray g => rw [convStore_cons_gray rest hm]; exact ih st r hr
    | color c =>
      rw [convStore_cons_color rest hm,
        ih _ r (by show r < st.next + 1; omega)]
      exact alloc_mem_of_lt st _ hr

theorem convPairs_some_ge {P : Type}
    (cvt : (P → Fin 3 → ℚ) → P → Fin 3 → ℚ) :
    ∀ (refs : List ℕ) (st : Store P) (yr : ℕ),
      some yr ∈ (convPairs cvt refs st).map Prod.fst → st.next ≤ yr := by
  intro refs
  induction refs with
  | nil => intro st yr h; exact absurd h (List.not_mem_nil _)
  | cons q rest ih =>
    intro st yr h
    cases hm : st.mem q with
    | gray g =>
      rw [convPairs_cons_gray rest hm, List.map_cons] at h
      rcases List.mem_cons.mp h with h0 | h1
      · exact Option.noConfusion h0
      · exact ih st yr h1
    | color c =>
      rw [convPairs_cons_color rest hm, List.map_cons] at h
      rcases List.mem_cons.mp h with h0 | h1
      · rw [← Option.some.inj h0]
      · calc st.next ≤ st.next + 1 := Nat.le_succ _
          _ ≤ yr := ih _ yr h1

theorem reconStore_mem_of_ne {P : Type}
    (cvtInv : (P → Fin 3 → ℚ) → P → Fin 3 → ℚ) :
    ∀ (os : List (Option ℕ)) (st : Store P) (fv : FOut P) (r : ℕ),
      (∀ yr, some yr ∈ os → r ≠ yr) →
      (reconStore cvtInv os st fv).mem r = st.mem r := by
  intro os
  induction os with
  | nil => intro st fv r _; rfl
  | cons o rest ih =>
    intro st fv r h
    cases o with
    | none =>
      exact ih st fv r fun yr hyr => h yr (List.mem_cons_of_mem _ hyr)
    | some yr =>
      cases fv with
      | rgb g => rfl
      | lum l =>
        cases hm : st.mem yr with
        | gray g' => rw [reconStore_cons_some_lum_gray rest hm]
        | color yc =>
          rw [reconStore_cons_some_lum_color rest hm,
            ih _ _ r fun yr' hyr' => h yr' (List.mem_cons_of_mem _ hyr')]
          unfold Store.write
          simp only
          rw [if_neg (h yr (List.mem_cons_self _ _))]

/-- C10: `Fusion.fuse` never mutates the caller's input arrays: after
the call (whether it returns or aborts), every input reference holds the
array value it held before the call.  All in-place writes target YCbCr
arrays freshly allocated inside the call. -/
theorem fuse_no_input_mutation {P : Type}
    (cvt cvtInv : (P → Fin 3 → ℚ) → P → Fin 3 → ℚ)
    (core : List (P → ℚ) → P → ℚ) (st0 : Store P) (refs : List ℕ)
    (hvalid : ∀ r ∈ refs, r < st0.next) :
    ∀ r ∈ refs, (fuseStore cvt cvtInv core st0 refs).mem r = st0.mem r := by
  intro r hr
  unfold fuseStore
  rw [reconStore_mem_of_ne cvtInv _ _ _ r fun yr hyr => by
    have h1 := convPairs_some_ge cvt refs st0 yr hyr
    have h2 := hvalid r hr
    omega]
  exact convStore_mem_of_lt cvt refs st0 r (hvalid r hr)

/-- Witness for `fuse_no_input_mutation`: two all-zero grayscale arrays
at references 0 and 1; after the call, reference 0 is unchanged. -/
theorem fuse_no_input_mutation_witness :
    (fuseStore (P := Fin 1) id id (fun _ _ => 0)
        ⟨2, fun _ => .gray (fun _ => 0)⟩ [0, 1]).mem 0 =
      Store.mem ⟨2, fun _ => .gray (fun _ => 0)⟩ 0 :=
  fuse_no_input_mutation id id (fun _ _ => 0)
    ⟨2, fun _ => .gray (fun _ => 0)⟩ [0, 1] (by decide) 0 (by decide)

/-! ## Procrustes alignment (`procrustes`, lines 32-100)

Point sets are matrices over `ℝ` with points as rows (`n` points, `m`
coordinates).  `np.linalg.svd` is an external LAPACK routine; instead of
reimplementing it, `procrustes` takes the decomposition `(U, s, V)` as
data (`V = Vt.T`, line 59), and the theorems constrain it by the SVD
contract (`A = U·diag(s)·Vᵀ`, orthogonal factors, nonnegative singular
values).  Division by a zero norm, which in NumPy produces non-finite
floats, is total division by zero in `ℝ`; the theorems assume the
nondegeneracy the spec requires.  The definitions here cover the
equal-dimensional case `my = m`: the `my < m` branch of the source
crashes before any further computation (see `procrustesPadBranch`). -/

open Matrix

/-- `X.mean(0)` (lines 36-37). -/
noncomputable def colMean {n m : ℕ} (X : Matrix (Fin n) (Fin m) ℝ) : Fin m → ℝ :=
  fun j => (∑ i, X i j) / n

/-- `X0 = X - muX` (lines 39-40). -/
noncomputable def centered {n m : ℕ} (X : Matrix (Fin n) (Fin m) ℝ) :
    Matrix (Fin n) (Fin m) ℝ :=
  Matrix.of fun i j => X i j - colMean X j

/-- `(X0**2.).sum()` (lines 42-43). -/
noncomputable def ssq {n m : ℕ} (X : Matrix (Fin n) (Fin m) ℝ) : ℝ :=
  ∑ i, ∑ j, X i j ^ 2

/-- Centred Frobenius norm `np.sqrt(ssX)` (lines 46-47). -/
noncomputable def normF {n m : ℕ} (X : Matrix (Fin n) (Fin m) ℝ) : ℝ :=
  Real.sqrt (ssq X)

/-- `X0 /= normX` (lines 50-51): the centred matrix scaled to unit
Frobenius norm. -/
noncomputable def normed {n m : ℕ} (X : Matrix (Fin n) (Fin m) ℝ) :
    Matrix (Fin n) (Fin m) ℝ :=
  (normF (centered X))⁻¹ • centered X

/-- The data `np.linalg.svd(A, full_matrices=False)` returns for the
square `m × m` cross-covariance `A = X0.T @ Y0`, with `V = Vt.T`
(lines 58-59). -/
structure SVDData (m : ℕ) : Type where
  U : Matrix (Fin m) (Fin m) ℝ
  s : Fin m → ℝ
  V : Matrix (Fin m) (Fin m) ℝ

/-- `V[:, -1] *= -1` (line 69): negate the last column. -/
def negLastCol {n' m : ℕ} (V : Matrix (Fin n') (Fin m) ℝ) :
    Matrix (Fin n') (Fin m) ℝ :=
  Matrix.of fun i j => if (j : ℕ) = m - 1 then -V i j else V i j

/-- `s[-1] *= -1` (line 70): negate the last singular value. -/
def negLast {m : ℕ} (s : Fin m → ℝ) : Fin m → ℝ :=
  fun i => if (i : ℕ) = m - 1 then -s i else s i

/-- The reflection-policy adjustment (lines 62-71): with
`reflection='best'` (`none`) the factors are kept; with a boolean
request, the solution is flipped whenever the request disagrees with
`have_reflection = det(T) < 0` for the unadjusted `T = V @ U.T`. -/
noncomputable def reflAdjust {m : ℕ} (svd : SVDData m)
    (reflection : Option Bool) : Matrix (Fin m) (Fin m) ℝ × (Fin m → ℝ) :=
  match reflection with
  | none => (svd.V, svd.s)
  | some b =>
    if (b = true) ↔ (svd.V * svd.Uᵀ).det < 0 then (svd.V, svd.s)
    else (negLastCol svd.V, negLast svd.s)

/-- The rotation `T = np.dot(V, U.T)` after the reflection adjustment
(lines 60, 71). -/
noncomputable def rotOf {m : ℕ} (svd : SVDData m)
    (reflection : Option Bool) : Matrix (Fin m) (Fin m) ℝ :=
  (reflAdjust svd reflection).1 * svd.Uᵀ

/-- `traceTA = s.sum()` (line 73), on the possibly flipped singular
values. -/
noncomputable def traceOf {m : ℕ} (svd : SVDData m)
    (reflection : Option Bool) : ℝ :=
  ∑ i, (reflAdjust svd reflection).2 i

/-- The transform record `tform` (line 98). -/
structure Tform (m : ℕ) : Type where
  rotation : Matrix (Fin m) (Fin m) ℝ
  scale : ℝ
  translation : Fin m → ℝ

/-- `procrustes(X, Y, scaling, reflection)` (lines 32-100) for point
sets of equal dimensionality, returning `(d, Z, tform)`.  The
`my < m` padding branch (never reached here) is `procrustesPadBranch`;
with `my = m` the truncation `T = T[:my, :]` (line 92) is skipped. -/
noncomputable def procrustes {n m : ℕ} (X Y : Matrix (Fin n) (Fin m) ℝ)
    (svd : SVDData m) (scaling : Bool) (reflection : Option Bool) :
    ℝ × Matrix (Fin n) (Fin m) ℝ × Tform m :=
  if scaling then
    (1 - traceOf svd reflection ^ 2,
     Matrix.of (fun i j => normF (centered X) * traceOf svd reflection *
       (normed Y * rotOf svd reflection) i j + colMean X j),
     ⟨rotOf svd reflection,
      traceOf svd reflection * normF (centered X) / normF (centered Y),
      fun j => colMean X j -
        traceOf svd reflection * normF (centered X) / normF (centered Y) *
          ∑ k, colMean Y k * rotOf svd reflection k j⟩)
  else
    (1 + ssq (centered Y) / ssq (centered X) -
       2 * traceOf svd reflection * normF (centered Y) / normF (centered X),
     Matrix.of (fun i j => normF (centered Y) *
       (normed Y * rotOf svd reflection) i j + colMean X j),
     ⟨rotOf svd reflection, 1,
      fun j => colMean X j -
        1 * ∑ k, colMean Y k * rotOf svd reflection k j⟩)

/-- `np.zeros(shape, dtype)` called with a Python `int` as the `dtype`
argument: NumPy cannot interpret an integer as a data type and raises
`TypeError` unconditionally. -/
def npZerosIntDtype (shape dtype : ℕ) : Except PyErr Unit :=
  .error .typeError

/-- Lines 53-54 of `procrustes`: when `my < m` the code executes
`Y0 = np.concatenate((Y0, np.zeros(n, m-my)), 0)`, passing the integer
`m - my` as the dtype of `np.zeros` — which raises `TypeError` before
any padding can happen (and the concatenation is along axis 0, rows,
not columns, in any case). -/
def procrustesPadBranch {n m my : ℕ} (X : Matrix (Fin n) (Fin m) ℝ)
    (Y : Matrix (Fin n) (Fin my) ℝ) : Except PyErr Unit :=
  if my < m then npZerosIntDtype n (m - my) else .ok ()

/-- C7: the claim that `procrustes` zero-pads a lower-dimensional `Y`
is refuted by the code: on a 2-D `X` with a 1-D `Y` the padding branch
raises `TypeError` from `np.zeros(n, m-my)`, so no alignment happens at
all. -/
theorem procrustesPadBranch_raises :
    procrustesPadBranch !![(0 : ℝ), 0; 1, 1] !![(0 : ℝ); 1] =
      .error .typeError := rfl

theorem negLastCol_det {k : ℕ} (V : Matrix (Fin (k + 1)) (Fin (k + 1)) ℝ) :
    (negLastCol V).det = -V.det := by
  have h : negLastCol V = V.updateColumn (Fin.last k)
      ((-1 : ℝ) • fun i => V i (Fin.last k)) := by
    ext i j
    by_cases hj : j = Fin.last k
    · subst hj
      simp [negLastCol, Matrix.updateColumn_apply, Fin.val_last]
    · have hj' : (j : ℕ) ≠ k := fun hh => hj (Fin.ext (by simpa using hh))
      simp [negLastCol, Matrix.updateColumn_apply, hj, hj']
  rw [h, Matrix.det_updateColumn_smul, Matrix.updateColumn_eq_self]
  rw [neg_one_mul]

theorem procrustes_rotation_eq {n m : ℕ} (X Y : Matrix (Fin n) (Fin m) ℝ)
    (svd : SVDData m) (scaling : Bool) (reflection : Option Bool) :
    (procrustes X Y svd scaling reflection).2.2.rotation =
      rotOf svd reflection := by
  unfold procrustes
  split_ifs <;> rfl

/-- C6: on a point-set pair whose unconstrained SVD solution
`T = V @ U.T` is a reflection (negative determinant), calling
`procrustes` with `reflection=False` flips the last singular vector, and
the returned rotation's determinant is the negation of — hence has the
opposite sign from — the unconstrained solution's. -/
theorem reflectionFalse_flips_det {n m : ℕ}
    (X Y : Matrix (Fin n) (Fin m) ℝ) (svd : SVDData m) (scaling : Bool)
    (hm : 0 < m) (hneg : (svd.V * svd.Uᵀ).det < 0) :
    (procrustes X Y svd scaling (some false)).2.2.rotation =
        negLastCol svd.V * svd.Uᵀ ∧
      (procrustes X Y svd scaling (some false)).2.2.rotation.det =
        -((svd.V * svd.Uᵀ).det) ∧
      0 < (procrustes X Y svd scaling (some false)).2.2.rotation.det := by
  obtain ⟨k, rfl⟩ := Nat.exists_eq_succ_of_ne_zero hm.ne'
  have hadj : reflAdjust svd (some false) =
      (negLastCol svd.V, negLast svd.s) := by
    show (if (false = true) ↔ (svd.V * svd.Uᵀ).det < 0 then (svd.V, svd.s)
      else (negLastCol svd.V, negLast svd.s)) = _
    rw [if_neg]
    intro hiff
    exact absurd (hiff.mpr hneg) (by simp)
  have hT : rotOf svd (some false) = negLastCol svd.V * svd.Uᵀ := by
    unfold rotOf; rw [hadj]
  have hrot := (procrustes_rotation_eq X Y svd scaling (some false)).trans hT
  have hdet : (negLastCol svd.V * svd.Uᵀ).det = -((svd.V * svd.Uᵀ).det) := by
    rw [Matrix.det_mul, Matrix.det_mul, negLastCol_det, neg_mul]
  refine ⟨hrot, by rw [hrot, hdet], ?_⟩
  rw [hrot, hdet]
  linarith

/-- Witness for `reflectionFalse_flips_det`: `U = 1`,
`V = diag(1, -1)`, whose product has determinant `-1 < 0`; the flip
returns the identity rotation with determinant `1`. -/
theorem reflectionFalse_flips_det_witness :
    (procrustes (0 : Matrix (Fin 2) (Fin 2) ℝ) 0
          ⟨1, ![1, 1], Matrix.diagonal ![1, -1]⟩ true (some false)).2.2.rotation =
        negLastCol (Matrix.diagonal ![(1 : ℝ), -1]) * (1 : Matrix (Fin 2) (Fin 2) ℝ)ᵀ ∧
      (procrustes (0 : Matrix (Fin 2) (Fin 2) ℝ) 0
          ⟨1, ![1, 1], Matrix.diagonal ![1, -1]⟩ true (some false)).2.2.rotation.det =
        -((Matrix.diagonal ![(1 : ℝ), -1] * (1 : Matrix (Fin 2) (Fin 2) ℝ)ᵀ).det) ∧
      0 < (procrustes (0 : Matrix (Fin 2) (Fin 2) ℝ) 0
          ⟨1, ![1, 1], Matrix.diagonal ![1, -1]⟩ true (some false)).2.2.rotation.det :=
  reflectionFalse_flips_det 0 0 ⟨1, ![1, 1], Matrix.diagonal ![1, -1]⟩
    true (by norm_num)
    (by

      simp [Matrix.transpose_one, Matrix.mul_one, Matrix.det_diagonal,
        Fin.prod_univ_two])

theorem ssq_nonneg {n m : ℕ} (X : Matrix (Fin n) (Fin m) ℝ) : 0 ≤ ssq X :=
  Finset.sum_nonneg fun _ _ => Finset.sum_nonneg fun _ _ => sq_nonneg _

theorem ssq_eq_trace {n m : ℕ} (X : Matrix (Fin n) (Fin m) ℝ) :
    ssq X = (Xᵀ * X).trace := by
  unfold ssq Matrix.trace
  simp only [Matrix.diag_apply, Matrix.mul_apply, Matrix.transpose_apply,
    sq]
  exact Finset.sum_comm

theorem ssq_smul {n m : ℕ} (a : ℝ) (X : Matrix (Fin n) (Fin m) ℝ) :
    ssq (a • X) = a ^ 2 * ssq X := by
  unfold ssq
  simp only [Matrix.smul_apply, smul_eq_mul, mul_pow, Finset.mul_sum]

theorem ssq_mul_orth {n m : ℕ} (X : Matrix (Fin n) (Fin m) ℝ)
    (R : Matrix (Fin m) (Fin m) ℝ) (hR : R * Rᵀ = 1) :
    ssq (X * R) = ssq X := by
  rw [ssq_eq_trace, ssq_eq_trace, Matrix.transpose_mul]
  have h : Rᵀ * Xᵀ * (X * R) = Rᵀ * (Xᵀ * X) * R := by
    simp only [Matrix.mul_assoc]
  rw [h, Matrix.trace_mul_cycle, hR, Matrix.one_mul]

/-- C5: on a non-degenerate point set `X` and its exact similarity image
`Y = c·X·R + t` (rotation `R`, uniform scale `c > 0`, translation `t`),
`procrustes(X, Y)` with scaling and `reflection='best'` returns
disparity exactly 0, transformed points `Z = X`, and a transform that
reconstructs the applied motion: rotation `Rᵀ`, scale `c⁻¹`, translation
`-c⁻¹·t·Rᵀ` — the inverse map carrying `Y` back onto `X`.  The SVD data
is constrained only by the contract of `np.linalg.svd`. -/
theorem procrustes_recovers_similarity {n m : ℕ}
    (X : Matrix (Fin n) (Fin m) ℝ) (R : Matrix (Fin m) (Fin m) ℝ)
    (c : ℝ) (t : Fin m → ℝ) (svd : SVDData m)
    (hR : Rᵀ * R = 1) (hdetR : R.det = 1) (hc : 0 < c)
    (Y : Matrix (Fin n) (Fin m) ℝ)
    (hY : Y = Matrix.of fun i j => c * (∑ k, X i k * R k j) + t j)
    (hU : svd.Uᵀ * svd.U = 1) (hV : svd.Vᵀ * svd.V = 1)
    (hs : ∀ i, 0 ≤ svd.s i)
    (hA : (normed X)ᵀ * normed Y = svd.U * Matrix.diagonal svd.s * svd.Vᵀ)
    (hss : ssq (centered X) ≠ 0)
    (hgram : ((normed X)ᵀ * normed X).det ≠ 0) :
    (procrustes X Y svd true none).1 = 0 ∧
      (procrustes X Y svd true none).2.1 = X ∧
      (procrustes X Y svd true none).2.2.rotation = Rᵀ ∧
      (procrustes X Y svd true none).2.2.scale = c⁻¹ ∧
      (procrustes X Y svd true none).2.2.translation =
        fun j => -(c⁻¹ * ∑ k, t k * R j k) := by
  have hRR : R * Rᵀ = 1 := Matrix.mul_eq_one_comm.mp hR
  have hn0 : n ≠ 0 := by
    intro h
    apply hss
    subst h
    unfold ssq
    simp
  have hnR : (n : ℝ) ≠ 0 := Nat.cast_ne_zero.mpr hn0
  have hmuY : colMean Y = fun j => c * (∑ l, colMean X l * R l j) + t j := by
    funext j
    unfold colMean
    rw [hY]
    simp only [Matrix.of_apply]
    rw [Finset.sum_add_distrib, Finset.sum_const, Finset.card_univ,
      Fintype.card_fin, nsmul_eq_mul, ← Finset.mul_sum, Finset.sum_comm]
    rw [show (∑ k : Fin m, ∑ i : Fin n, X i k * R k j)
        = ∑ k : Fin m, (∑ i : Fin n, X i k) * R k j from
      Finset.sum_congr rfl fun k _ => (Finset.sum_mul _ _ _).symm]
    rw [show (∑ l : Fin m, (∑ i : Fin n, X i l) / (n : ℝ) * R l j)
        = (∑ l : Fin m, (∑ i : Fin n, X i l) * R l j) / n from by
      rw [Finset.sum_congr rfl fun l _ => div_mul_eq_mul_div _ _ _,
        ← Finset.sum_div]]
    field_simp
    ring
  have hY0 : centered Y = c • (centered X * R) := by
    ext i j
    simp only [centered, Matrix.of_apply, Matrix.smul_apply,
      Matrix.mul_apply, smul_eq_mul]
    simp only [hmuY]
    simp only [hY, Matrix.of_apply]
    rw [show (∑ k, (X i k - colMean X k) * R k j)
        = ∑ k, X i k * R k j - ∑ k, colMean X k * R k j from by
      rw [← Finset.sum_sub_distrib]
      exact Finset.sum_congr rfl fun k _ => sub_mul _ _ _]
    ring
  have hssY : ssq (centered Y) = c ^ 2 * ssq (centered X) := by
    rw [hY0, ssq_smul, ssq_mul_orth _ R hRR]
  have hnormY : normF (centered Y) = c * normF (centered X) := by
    unfold normF
    rw [hssY, Real.sqrt_mul (sq_nonneg c), Real.sqrt_sq hc.le]
  have hssPos : 0 < ssq (centered X) :=
    lt_of_le_of_ne (ssq_nonneg _) (Ne.symm hss)
  have hnormX : normF (centered X) ≠ 0 :=
    (Real.sqrt_pos.mpr hssPos).ne'
  have hY0n : normed Y = normed X * R := by
    unfold normed
    rw [hnormY, hY0, mul_inv, smul_smul]
    rw [show c⁻¹ * (normF (centered X))⁻¹ * c = (normF (centered X))⁻¹ from by
      field_simp]
    rw [Matrix.smul_mul]
  have hA' : (normed X)ᵀ * normed Y = ((normed X)ᵀ * normed X) * R := by
    rw [hY0n, ← Matrix.mul_assoc]
  have hGsymm : ((normed X)ᵀ * normed X)ᵀ = (normed X)ᵀ * normed X := by
    rw [Matrix.transpose_mul, Matrix.transpose_transpose]
  have hGpsd : ((normed X)ᵀ * normed X).PosSemidef := by
    rw [← Matrix.conjTranspose_eq_transpose_of_trivial]
    exact Matrix.posSemidef_conjTranspose_mul_self _
  have hPpsd : (svd.U * Matrix.diagonal svd.s * svd.Uᵀ).PosSemidef := by
    have hd : (Matrix.diagonal svd.s).PosSemidef :=
      Matrix.PosSemidef.diagonal (by intro i; exact hs i)
    have h2 := hd.mul_mul_conjTranspose_same svd.U
    rwa [Matrix.conjTranspose_eq_transpose_of_trivial] at h2
  have hAAT : (svd.U * Matrix.diagonal svd.s * svd.Vᵀ) *
      (svd.U * Matrix.diagonal svd.s * svd.Vᵀ)ᵀ =
      svd.U * Matrix.diagonal svd.s * Matrix.diagonal svd.s * svd.Uᵀ := by
    rw [Matrix.transpose_mul, Matrix.transpose_mul,
      Matrix.transpose_transpose, Matrix.diagonal_transpose]
    simp only [Matrix.mul_assoc]
    rw [← Matrix.mul_assoc svd.Vᵀ svd.V, hV, Matrix.one_mul]
  have hPsq : (svd.U * Matrix.diagonal svd.s * svd.Uᵀ) ^ 2 =
      svd.U * Matrix.diagonal svd.s * Matrix.diagonal svd.s * svd.Uᵀ := by
    rw [pow_two]
    simp only [Matrix.mul_assoc]
    rw [← Matrix.mul_assoc svd.Uᵀ svd.U, hU, Matrix.one_mul]
  have hGsq : ((normed X)ᵀ * normed X) ^ 2 =
      (svd.U * Matrix.diagonal svd.s * svd.Vᵀ) *
        (svd.U * Matrix.diagonal svd.s * svd.Vᵀ)ᵀ := by
    rw [← hA, hA', Matrix.transpose_mul, pow_two, hGsymm]
    simp only [Matrix.mul_assoc]
    rw [← Matrix.mul_assoc R Rᵀ, hRR, Matrix.one_mul]
  have hPG : svd.U * Matrix.diagonal svd.s * svd.Uᵀ =
      (normed X)ᵀ * normed X :=
    hPpsd.eq_of_sq_eq_sq hGpsd (by rw [hPsq, hGsq, hAAT])
  have htraceG : ((normed X)ᵀ * normed X).trace = 1 := by
    rw [← ssq_eq_trace]
    unfold normed normF
    rw [ssq_smul, inv_pow, Real.sq_sqrt (ssq_nonneg _)]
    exact inv_mul_cancel₀ hss
  have htrace_s : ∑ i, svd.s i = 1 := by
    have h1 : (svd.U * Matrix.diagonal svd.s * svd.Uᵀ).trace
        = ∑ i, svd.s i := by
      rw [Matrix.trace_mul_cycle, hU, Matrix.one_mul,
        Matrix.trace_diagonal]
    rw [← h1, hPG, htraceG]
  have htra : traceOf svd none = 1 := htrace_s
  have hUV : svd.U * svd.Vᵀ = R := by
    have h2 : ((normed X)ᵀ * normed X) * (svd.U * svd.Vᵀ)
        = ((normed X)ᵀ * normed X) * R := by
      calc ((normed X)ᵀ * normed X) * (svd.U * svd.Vᵀ)
          = (svd.U * Matrix.diagonal svd.s * svd.Uᵀ) *
            (svd.U * svd.Vᵀ) := by rw [hPG]
        _ = svd.U * Matrix.diagonal svd.s * svd.Vᵀ := by
            simp only [Matrix.mul_assoc]
            rw [← Matrix.mul_assoc svd.Uᵀ svd.U, hU, Matrix.one_mul]
        _ = ((normed X)ᵀ * normed X) * R := by rw [← hA, hA']
    have hunit : IsUnit ((normed X)ᵀ * normed X).det :=
      isUnit_iff_ne_zero.mpr hgram
    have h3 := congrArg (fun M => ((normed X)ᵀ * normed X)⁻¹ * M) h2
    simpa [← Matrix.mul_assoc,
      Matrix.nonsing_inv_mul _ hunit] using h3
  have hT : rotOf svd none = Rᵀ := by
    show svd.V * svd.Uᵀ = Rᵀ
    rw [← hUV, Matrix.transpose_mul, Matrix.transpose_transpose]
  have hYnT : normed Y * rotOf svd none = normed X := by
    rw [hY0n, hT, Matrix.mul_assoc, hRR, Matrix.mul_one]
  refine ⟨?_, ?_, ?_, ?_, ?_⟩
  · show 1 - traceOf svd none ^ 2 = 0
    rw [htra]
    norm_num
  · ext i j
    show normF (centered X) * traceOf svd none *
      (normed Y * rotOf svd none) i j + colMean X j = X i j
    rw [htra, hYnT]
    simp only [normed, centered, Matrix.smul_apply, Matrix.of_apply,
      smul_eq_mul]
    rw [mul_one, mul_inv_cancel_left₀
      (show normF (Matrix.of fun i j => X i j - colMean X j) ≠ 0 from
        hnormX)]
    ring
  · show rotOf svd none = Rᵀ
    exact hT
  · show traceOf svd none * normF (centered X) / normF (centered Y) = c⁻¹
    rw [htra, hnormY, one_mul, mul_comm c, div_mul_eq_div_div,
      div_self hnormX, one_div]
  · funext j
    show colMean X j -
        traceOf svd none * normF (centered X) / normF (centered Y) *
          ∑ k, colMean Y k * rotOf svd none k j =
      -(c⁻¹ * ∑ k, t k * R j k)
    rw [htra, hnormY, one_mul, mul_comm c, div_mul_eq_div_div,
      div_self hnormX, one_div, hT, hmuY]
    simp only [Matrix.transpose_apply]
    have hδ : ∀ l, (∑ k, R l k * R j k) = if l = j then 1 else 0 := by
      intro l
      have h4 : (R * Rᵀ) l j = (1 : Matrix (Fin m) (Fin m) ℝ) l j := by
        rw [hRR]
      simpa [Matrix.mul_apply, Matrix.transpose_apply,
        Matrix.one_apply] using h4
    have hswap : ∑ k, (c * (∑ l, colMean X l * R l k) + t k) * R j k
        = c * colMean X j + ∑ k, t k * R j k := by
      rw [Finset.sum_congr rfl fun k _ =>
          show (c * (∑ l, colMean X l * R l k) + t k) * R j k
            = c * ((∑ l, colMean X l * R l k) * R j k) + t k * R j k from
            by ring,
        Finset.sum_add_distrib, ← Finset.mul_sum]
      congr 1
      congr 1
      rw [Finset.sum_congr rfl fun k _ => Finset.sum_mul _ _ _,
        Finset.sum_comm]
      rw [Finset.sum_congr rfl fun l _ =>
        show (∑ k, colMean X l * R l k * R j k)
          = colMean X l * ∑ k, R l k * R j k from by
          rw [Finset.mul_sum]
          exact Finset.sum_congr rfl fun k _ => by ring]
      rw [Finset.sum_congr rfl fun l _ => by rw [hδ l]]
      simp [mul_ite]
    rw [hswap]
    field_simp
    ring

/-- Concrete point set for the Procrustes witness: four points on the
axes, centred at the origin. -/
def procX : Matrix (Fin 4) (Fin 2) ℝ := !![-1, 0; 1, 0; 0, -1; 0, 1]

/-- Concrete SVD data for the witness: `A = diag(1/2, 1/2)` has the
decomposition `U = 1`, `s = (1/2, 1/2)`, `V = 1`. -/
noncomputable def procSVD : SVDData 2 := ⟨1, ![1 / 2, 1 / 2], 1⟩

/-- Witness for `procrustes_recovers_similarity`: `Y = X` (identity
rotation, unit scale, zero translation). -/
theorem procrustes_recovers_similarity_witness :
    (procrustes procX procX procSVD true none).1 = 0 ∧
      (procrustes procX procX procSVD true none).2.1 = procX ∧
      (procrustes procX procX procSVD true none).2.2.rotation =
        (1 : Matrix (Fin 2) (Fin 2) ℝ)ᵀ ∧
      (procrustes procX procX procSVD true none).2.2.scale = (1 : ℝ)⁻¹ ∧
      (procrustes procX procX procSVD true none).2.2.translation =
        fun j => -((1 : ℝ)⁻¹ *
          ∑ k, (0 : Fin 2 → ℝ) k * (1 : Matrix (Fin 2) (Fin 2) ℝ) j k) := by
  have hcol : colMean procX = fun _ => 0 := by
    funext j
    fin_cases j <;>
      norm_num [colMean, procX, Fin.sum_univ_four, Matrix.cons_val_zero, Matrix.cons_val_one, Matrix.head_cons, Matrix.vecHead, Matrix.vecTail, Function.comp, Pi.zero_apply]
  have hcent : centered procX = procX := by
    ext i j
    simp [centered, hcol]
  have hssq : ssq (centered procX) = 4 := by
    rw [hcent]
    norm_num [ssq, procX, Fin.sum_univ_four, Fin.sum_univ_two,
      Matrix.cons_val_zero, Matrix.cons_val_one, Matrix.head_cons, Matrix.vecHead, Matrix.vecTail, Function.comp, Pi.zero_apply]
  have hnorm : normF (centered procX) = 2 := by
    unfold normF
    rw [hssq, show (4 : ℝ) = 2 ^ 2 by norm_num,
      Real.sqrt_sq (by norm_num)]
  have hnormed : normed procX = (2 : ℝ)⁻¹ • procX := by
    unfold normed
    rw [hnorm, hcent]
  have hAw : (normed procX)ᵀ * normed procX =
      procSVD.U * Matrix.diagonal procSVD.s * procSVD.Vᵀ := by
    rw [hnormed]
    ext i j
    fin_cases i <;> fin_cases j <;>
      norm_num [Matrix.mul_apply, Matrix.transpose_apply,
        Matrix.smul_apply, procX, procSVD, Matrix.diagonal,
        Matrix.one_apply, Fin.sum_univ_four, Matrix.cons_val_zero, Matrix.cons_val_one, Matrix.head_cons, Matrix.vecHead, Matrix.vecTail, Function.comp, Pi.zero_apply]
  refine procrustes_recovers_similarity procX 1 1 0 procSVD
    (by simp) (by simp) (by norm_num) procX ?_ (by simp [procSVD])
    (by simp [procSVD]) ?_ hAw ?_ ?_
  · ext i j
    simp [Matrix.one_apply, mul_ite, Finset.sum_ite_eq']
  · intro i
    fin_cases i <;> norm_num [procSVD]
  · rw [hssq]
    norm_num
  · rw [hAw]
    norm_num [procSVD, Matrix.det_diagonal, Fin.prod_univ_two]

end MedApp
